import Mathlib

/-!
Verification of the lanparty file server's core logic.

The Go source is embedded shallowly: pure string functions become Lean
functions over `String` (working internally on `String.data : List Char`),
filesystem-touching code becomes explicit state passing over association
lists from absolute path to file contents, and `lstat`/`stat` become
abstract oracles supplied as parameters.  The deployment platform is
Linux (see the repository's Dockerfile), so `filepath.Separator` is `'/'`,
`filepath.FromSlash` is the identity and `filepath.Clean` coincides with
`path.Clean`.  Unicode-aware Go helpers (`strings.TrimSpace`,
`strings.ToLower`) are modelled on their Latin-1/ASCII behaviour, which is
total on the byte-level paths the server manipulates.
-/

namespace Lanparty

/-! ### Go `path.Clean` (src/internal/fsutil/fsutil.go uses `path.Clean` and
`filepath.Clean`; on Linux they implement the same algorithm).

We model paths as `List Char` and split/join on `'/'`. -/

/-- Split a character list on `'/'`, keeping empty fields, exactly like
`strings.Split(s, "/")`.  `cur` is the (reversed) field under construction. -/
def splitSlashAux : List Char → List Char → List (List Char)
  | cur, [] => [cur.reverse]
  | cur, c :: rest =>
    if c = '/' then cur.reverse :: splitSlashAux [] rest
    else splitSlashAux (c :: cur) rest

def splitSlash (s : List Char) : List (List Char) := splitSlashAux [] s

/-- Join fields with `'/'`, the inverse of `splitSlash` on slash-free fields. -/
def joinSlash : List (List Char) → List Char
  | [] => []
  | [x] => x
  | x :: y :: ys => x ++ '/' :: joinSlash (y :: ys)

/-- The `".."` path element. -/
def dotdot : List Char := ['.', '.']

/-- Whether the path is rooted (starts with `'/'`). -/
def isRooted (p : List Char) : Bool := p.head? = some '/'

/-- Effect of a `".."` element on the output stack of `path.Clean`: pop the
last emitted element if possible; otherwise keep the `".."` when the path is
not rooted and drop it when it is. -/
def popDotDot (rooted : Bool) : List (List Char) → List (List Char)
  | [] => if rooted then [] else [dotdot]
  | top :: tl => if top = dotdot then dotdot :: top :: tl else tl

/-- The element loop of Go's `path.Clean`, with the output kept as a stack
(`acc` holds the emitted elements in reverse).  `""` and `"."` elements are
skipped; `".."` pops via `popDotDot` (only a leading run of `".."` elements,
impossible when rooted, is unpoppable). -/
def cleanStack (rooted : Bool) : List (List Char) → List (List Char) → List (List Char)
  | acc, [] => acc
  | acc, p :: rest =>
    if p = [] ∨ p = ['.'] then cleanStack rooted acc rest
    else if p = dotdot then cleanStack rooted (popDotDot rooted acc) rest
    else cleanStack rooted (p :: acc) rest

/-- Go `path.Clean` on a character list. -/
def goPathCleanL (p : List Char) : List Char :=
  if p = [] then ['.']
  else
    let comps := (cleanStack (isRooted p) [] (splitSlash p)).reverse
    if comps = [] then (if isRooted p then ['/'] else ['.'])
    else (if isRooted p then '/' :: joinSlash comps else joinSlash comps)

/-- Go `path.Clean` / Linux `filepath.Clean` on a `String`. -/
def goPathClean (s : String) : String := ⟨goPathCleanL s.data⟩

/-- Go `unicode.IsSpace` restricted to Latin-1 (the full table additionally
contains Unicode category-Z code points, irrelevant for the proved claims
because trimming happens before cleaning). -/
def goIsSpace (c : Char) : Bool :=
  c = ' ' ∨ c = '\t' ∨ c = '\n' ∨ c = '\x0b' ∨ c = '\x0c' ∨ c = '\r' ∨
  c = '\u0085' ∨ c = ' '

/-- `strings.TrimSpace` on a character list. -/
def goTrimSpaceL (s : List Char) : List Char :=
  ((s.dropWhile goIsSpace).reverse.dropWhile goIsSpace).reverse

/-- `strings.TrimSpace`. -/
def goTrimSpace (s : String) : String := ⟨goTrimSpaceL s.data⟩

/-- `fsutil.CleanRelPath` on a character list (src/internal/fsutil/fsutil.go):
trim space; map `""`, `"."`, `"/"` to `""`; replace backslashes by slashes;
`path.Clean("/" + p)`; strip the leading slash; map a leftover `"."` to `""`. -/
def goCleanRelPathL (p : List Char) : List Char :=
  let p1 := goTrimSpaceL p
  if p1 = [] ∨ p1 = ['.'] ∨ p1 = ['/'] then []
  else
    let p2 := p1.map (fun c => if c = '\\' then '/' else c)
    let p3 := goPathCleanL ('/' :: p2)
    let p4 := if p3.head? = some '/' then p3.tail else p3
    if p4 = ['.'] then [] else p4

/-- `fsutil.CleanRelPath`. -/
def goCleanRelPath (s : String) : String := ⟨goCleanRelPathL s.data⟩

/-- Two-argument Linux `filepath.Join`: join with `'/'` starting from the
first non-empty element, then `Clean`; all-empty input yields `""`. -/
def goFilepathJoin2L (a b : List Char) : List Char :=
  if a ≠ [] then goPathCleanL (a ++ '/' :: b)
  else if b ≠ [] then goPathCleanL b
  else []

/-- Two-argument Linux `filepath.Join` on `String`. -/
def goFilepathJoin2 (a b : String) : String := ⟨goFilepathJoin2L a.data b.data⟩

/-- `fsutil.JoinWithinRoot` on character lists: clean the user path, accept
the root itself for an empty relative path, reject NUL bytes, join, clean,
and require the result to equal the cleaned root or extend it past a `'/'`. -/
def goJoinWithinRootL (rootAbs rel : List Char) : Except String (List Char) :=
  let rel1 := goCleanRelPathL rel
  if rel1 = [] then .ok rootAbs
  else if rel1.contains '\x00' then .error "invalid path"
  else
    let abs := goFilepathJoin2L rootAbs rel1
    let absClean := goPathCleanL abs
    let rootClean := goPathCleanL rootAbs
    if absClean = rootClean ∨ (rootClean ++ ['/']).isPrefixOf absClean then .ok absClean
    else .error "path escape"

/-- `fsutil.JoinWithinRoot`. -/
def goJoinWithinRoot (rootAbs rel : String) : Except String String :=
  (goJoinWithinRootL rootAbs.data rel.data).map (fun l => ⟨l⟩)

/-! ### Structure of cleaned paths -/

theorem isRooted_iff {p : List Char} : isRooted p = true ↔ p.head? = some '/' := by
  simp [isRooted]

theorem splitSlashAux_no_slash {s : List Char} :
    ∀ {cur : List Char}, '/' ∉ cur → ∀ x ∈ splitSlashAux cur s, '/' ∉ x := by
  induction s with
  | nil =>
    intro cur hcur x hx
    simp only [splitSlashAux, List.mem_singleton] at hx
    subst hx
    simpa using hcur
  | cons c rest ih =>
    intro cur hcur x hx
    by_cases hc : c = '/'
    · subst hc
      simp [splitSlashAux] at hx
      rcases hx with h | h
      · subst h; simpa using hcur
      · exact ih (by simp) x h
    · rw [splitSlashAux, if_neg hc] at hx
      refine ih ?_ x hx
      intro hmem
      rcases List.mem_cons.mp hmem with h | h
      · exact hc h.symm
      · exact hcur h

theorem splitSlash_no_slash {s : List Char} : ∀ x ∈ splitSlash s, '/' ∉ x :=
  splitSlashAux_no_slash (by simp)

theorem splitSlashAux_eq_single {x : List Char} (hx : '/' ∉ x) :
    ∀ cur : List Char, splitSlashAux cur x = [cur.reverse ++ x] := by
  induction x with
  | nil => intro cur; simp [splitSlashAux]
  | cons c t ih =>
    intro cur
    have hc : ¬ c = '/' := fun h => hx (by simp [h])
    rw [splitSlashAux, if_neg hc, ih (fun h => hx (List.mem_cons_of_mem _ h))]
    simp

theorem splitSlashAux_append {x : List Char} (hx : '/' ∉ x) :
    ∀ cur rest : List Char,
      splitSlashAux cur (x ++ '/' :: rest) = (cur.reverse ++ x) :: splitSlashAux [] rest := by
  induction x with
  | nil => intro cur rest; simp [splitSlashAux]
  | cons c t ih =>
    intro cur rest
    have hc : ¬ c = '/' := fun h => hx (by simp [h])
    rw [List.cons_append, splitSlashAux, if_neg hc,
      ih (fun h => hx (List.mem_cons_of_mem _ h))]
    simp

theorem splitSlash_joinSlash {xs : List (List Char)} (hne : xs ≠ [])
    (h : ∀ x ∈ xs, '/' ∉ x) : splitSlash (joinSlash xs) = xs := by
  induction xs with
  | nil => exact absurd rfl hne
  | cons x t ih =>
    cases t with
    | nil =>
      rw [joinSlash]
      unfold splitSlash
      rw [splitSlashAux_eq_single (h x (by simp)) []]
      simp
    | cons y ys =>
      rw [joinSlash]
      unfold splitSlash
      rw [splitSlashAux_append (h x (by simp)) []]
      have h2 := ih (by simp) (fun z hz => h z (List.mem_cons_of_mem _ hz))
      unfold splitSlash at h2
      rw [h2]
      simp

/-- A path element that survives `path.Clean` of a rooted path: non-empty,
not `"."`, not `".."`, slash-free. -/
def goodComp (c : List Char) : Prop := c ≠ [] ∧ c ≠ ['.'] ∧ c ≠ dotdot ∧ '/' ∉ c

theorem cleanStack_good {comps : List (List Char)}
    (hc : ∀ c ∈ comps, '/' ∉ c) :
    ∀ {acc : List (List Char)}, (∀ c ∈ acc, goodComp c) →
      ∀ c ∈ cleanStack true acc comps, goodComp c := by
  induction comps with
  | nil => intro acc ha c hce; rw [cleanStack] at hce; exact ha c hce
  | cons p rest ih =>
    intro acc ha c hce
    have hrest : ∀ c ∈ rest, '/' ∉ c := fun c h => hc c (List.mem_cons_of_mem _ h)
    by_cases h1 : p = [] ∨ p = ['.']
    · rw [cleanStack, if_pos h1] at hce
      exact ih hrest ha c hce
    · by_cases h2 : p = dotdot
      · rw [cleanStack, if_neg h1, if_pos h2] at hce
        cases acc with
        | nil =>
          rw [show popDotDot true [] = [] from rfl] at hce
          exact ih hrest (by simp) c hce
        | cons top tl =>
          have htop : goodComp top := ha top (by simp)
          rw [show popDotDot true (top :: tl)
              = if top = dotdot then dotdot :: top :: tl else tl from rfl,
            if_neg htop.2.2.1] at hce
          exact ih hrest (fun c h => ha c (List.mem_cons_of_mem _ h)) c hce
      · rw [cleanStack, if_neg h1, if_neg h2] at hce
        push_neg at h1
        refine ih hrest ?_ c hce
        intro c hmem
        rcases List.mem_cons.mp hmem with h | h
        · rw [h]; exact ⟨h1.1, h1.2, h2, hc p (by simp)⟩
        · exact ha c h

theorem cleanStack_push_all (rooted : Bool) {comps : List (List Char)}
    (h : ∀ c ∈ comps, c ≠ [] ∧ c ≠ ['.'] ∧ c ≠ dotdot) :
    ∀ acc : List (List Char), cleanStack rooted acc comps = comps.reverse ++ acc := by
  induction comps with
  | nil => intro acc; simp [cleanStack]
  | cons p rest ih =>
    intro acc
    obtain ⟨h1, h2, h3⟩ := h p (by simp)
    rw [cleanStack, if_neg (by simp [h1, h2]), if_neg h3,
      ih (fun c hm => h c (List.mem_cons_of_mem _ hm))]
    simp

theorem goPathCleanL_rooted {p : List Char} (hp : isRooted p = true) :
    ∃ comps, (∀ c ∈ comps, goodComp c) ∧
      goPathCleanL p = (if comps = [] then ['/'] else '/' :: joinSlash comps) := by
  have hne : p ≠ [] := by
    intro h; subst h; simp [isRooted] at hp
  refine ⟨(cleanStack true [] (splitSlash p)).reverse, ?_, ?_⟩
  · intro c hcm
    rw [List.mem_reverse] at hcm
    exact cleanStack_good splitSlash_no_slash (by simp) c hcm
  · rw [goPathCleanL, if_neg hne]
    simp [hp]

theorem goPathCleanL_rooted_head {p : List Char} (hp : isRooted p = true) :
    isRooted (goPathCleanL p) = true := by
  obtain ⟨comps, _, heq⟩ := goPathCleanL_rooted hp
  rw [heq]
  by_cases hc : comps = []
  · rw [if_pos hc]; rfl
  · rw [if_neg hc]; rfl

theorem goPathCleanL_idem {p : List Char} (hp : isRooted p = true) :
    goPathCleanL (goPathCleanL p) = goPathCleanL p := by
  obtain ⟨comps, hgood, heq⟩ := goPathCleanL_rooted hp
  by_cases hc : comps = []
  · rw [heq, if_pos hc]
    decide
  · rw [heq, if_neg hc]
    have hone : ('/' :: joinSlash comps) ≠ [] := by simp
    have hroot : isRooted ('/' :: joinSlash comps) = true := rfl
    have hsplit : splitSlash ('/' :: joinSlash comps) = [] :: comps := by
      unfold splitSlash
      rw [splitSlashAux, if_pos rfl]
      have := splitSlash_joinSlash hc (fun x hx => (hgood x hx).2.2.2)
      unfold splitSlash at this
      rw [this]
      rfl
    have hstack : cleanStack true [] (splitSlash ('/' :: joinSlash comps)) = comps.reverse := by
      rw [hsplit, cleanStack, if_pos (Or.inl rfl),
        cleanStack_push_all true
          (fun c hm => ⟨(hgood c hm).1, (hgood c hm).2.1, (hgood c hm).2.2.1⟩) []]
      simp
    rw [goPathCleanL, if_neg hone]
    simp [hroot, hstack, hc]

theorem head?_append_of_ne_nil {a b : List Char} (ha : a ≠ []) :
    (a ++ b).head? = a.head? := by
  cases a with
  | nil => exact absurd rfl ha
  | cons c t => rfl

/-- C1.  `JoinWithinRoot(R, p)` on an absolute root `R` either fails with
`"path escape"` or `"invalid path"`, or returns an absolute path that, after
lexical cleaning, equals the cleaned `R` or begins with the cleaned `R`
followed by the path separator `'/'`.  No other outcome is possible. -/
theorem joinWithinRoot_contained (R p : String) (hR : R.data.head? = some '/') :
    match goJoinWithinRoot R p with
    | .error e => e = "path escape" ∨ e = "invalid path"
    | .ok a => a.data.head? = some '/' ∧
        (goPathClean a = goPathClean R ∨
          ((goPathClean R ++ "/").data.isPrefixOf (goPathClean a).data = true)) := by
  have hRne : R.data ≠ [] := by
    intro h; rw [h] at hR; simp at hR
  rw [goJoinWithinRoot]
  unfold goJoinWithinRootL
  by_cases h1 : goCleanRelPathL p.data = []
  · rw [if_pos h1]
    exact ⟨hR, Or.inl rfl⟩
  · rw [if_neg h1]
    by_cases h2 : (goCleanRelPathL p.data).contains '\x00' = true
    · rw [if_pos h2]
      exact Or.inr rfl
    · rw [if_neg h2]
      have habs : goFilepathJoin2L R.data (goCleanRelPathL p.data)
          = goPathCleanL (R.data ++ '/' :: goCleanRelPathL p.data) := by
        rw [goFilepathJoin2L, if_pos hRne]
      have habsroot : isRooted (goFilepathJoin2L R.data (goCleanRelPathL p.data)) = true := by
        rw [habs]
        apply goPathCleanL_rooted_head
        rw [isRooted_iff, head?_append_of_ne_nil hRne]
        exact hR
      have hidem : goPathCleanL (goPathCleanL (goFilepathJoin2L R.data (goCleanRelPathL p.data)))
          = goPathCleanL (goFilepathJoin2L R.data (goCleanRelPathL p.data)) :=
        goPathCleanL_idem habsroot
      by_cases h3 : goPathCleanL (goFilepathJoin2L R.data (goCleanRelPathL p.data))
            = goPathCleanL R.data ∨
          (goPathCleanL R.data ++ ['/']).isPrefixOf
            (goPathCleanL (goFilepathJoin2L R.data (goCleanRelPathL p.data))) = true
      · rw [if_pos h3]
        refine ⟨?_, ?_⟩
        · have := goPathCleanL_rooted_head habsroot
          rw [isRooted_iff] at this
          exact this
        · have hclean : (goPathClean (⟨goPathCleanL (goFilepathJoin2L R.data
              (goCleanRelPathL p.data))⟩ : String)).data
              = goPathCleanL (goFilepathJoin2L R.data (goCleanRelPathL p.data)) := by
            show goPathCleanL (goPathCleanL _) = _
            exact hidem
          rcases h3 with h3 | h3
          · left
            apply String.ext
            rw [hclean]
            exact h3
          · right
            have hRd : (goPathClean R ++ "/").data = goPathCleanL R.data ++ ['/'] := by
              rfl
            rw [hRd, hclean]
            exact h3
      · rw [if_neg h3]
        exact Or.inl rfl

/-- Witness for `joinWithinRoot_contained`: concrete root `/srv/share` and
user path `photos/../a.txt`. -/
theorem joinWithinRoot_contained_witness :
    ("/srv/share" : String).data.head? = some '/' ∧
    (match goJoinWithinRoot "/srv/share" "photos/../a.txt" with
     | .error e => e = "path escape" ∨ e = "invalid path"
     | .ok a => a.data.head? = some '/' ∧
         (goPathClean a = goPathClean "/srv/share" ∨
           ((goPathClean "/srv/share" ++ "/").data.isPrefixOf (goPathClean a).data = true))) :=
  ⟨by decide, joinWithinRoot_contained "/srv/share" "photos/../a.txt" (by decide)⟩

/-! ### `fsutil.ResolveWithinRoot` with `followSymlinks = false`
(src/unnamed/part_001, `ResolveWithinRoot`).

The filesystem is abstracted as an `lstat` oracle.  `os.Lstat` can report a
missing path (`fs.ErrNotExist`), a symlink, some other stat failure, or an
existing non-symlink entry. -/

inductive LstatKind
  | missing
  | symlink
  | statError
  | other
deriving DecidableEq, Repr

structure FS where
  lstat : String → LstatKind

deriving instance DecidableEq for Except

/-- The per-component loop of `ResolveWithinRoot` with `followSymlinks=false`:
walk the split relative path, skipping empty elements, joining each component
onto `cur` and lstat-ing it.  A missing component ends the walk successfully
(create flows); a symlink fails with `"symlink traversal disabled"`; any
other lstat failure is propagated. -/
def walkParts (fs : FS) (joined : String) : String → List String → Except String String
  | _, [] => .ok joined
  | cur, p :: rest =>
    if p = "" then walkParts fs joined cur rest
    else
      match fs.lstat (goFilepathJoin2 cur p) with
      | .missing => .ok joined
      | .symlink => .error "symlink traversal disabled"
      | .statError => .error "lstat error"
      | .other => walkParts fs joined (goFilepathJoin2 cur p) rest

/-- `strings.Split(s, "/")`. -/
def goStringsSplitSlash (s : String) : List String :=
  (splitSlash s.data).map (fun l => ⟨l⟩)

/-- `fsutil.ResolveWithinRoot(rootAbs, rel, followSymlinks=false)`. -/
def goResolveWithinRootNoFollow (fs : FS) (rootAbs rel : String) : Except String String :=
  match goJoinWithinRoot rootAbs rel with
  | .error e => .error e
  | .ok joined =>
    if goCleanRelPath rel = "" then .ok joined
    else
      walkParts fs joined (goPathClean rootAbs) (goStringsSplitSlash (goCleanRelPath rel))

/-- The cumulative prefixes that `walkParts` lstat-s, in walk order. -/
def checkedPrefixes (cur : String) : List String → List String
  | [] => []
  | p :: rest =>
    if p = "" then checkedPrefixes cur rest
    else goFilepathJoin2 cur p :: checkedPrefixes (goFilepathJoin2 cur p) rest

/-- The lstat oracle reports an existing non-symlink entry. -/
def lstatIsOther (fs : FS) (q : String) : Bool :=
  match fs.lstat q with
  | .other => true
  | _ => false

/-- The lstat oracle reports an existing entry (of any kind). -/
def lstatExists (fs : FS) (q : String) : Bool :=
  match fs.lstat q with
  | .missing => false
  | _ => true

theorem walkParts_characterization (fs : FS) (joined : String) :
    ∀ (parts : List String) (cur : String),
      walkParts fs joined cur parts =
        match (checkedPrefixes cur parts).find? (fun q => !lstatIsOther fs q) with
        | none => .ok joined
        | some q =>
          match fs.lstat q with
          | .missing => .ok joined
          | .symlink => .error "symlink traversal disabled"
          | .statError => .error "lstat error"
          | .other => .ok joined := by
  intro parts
  induction parts with
  | nil => intro cur; rfl
  | cons p rest ih =>
    intro cur
    by_cases hp : p = ""
    · rw [walkParts, if_pos hp, checkedPrefixes, if_pos hp]
      exact ih cur
    · rw [walkParts, if_neg hp, checkedPrefixes, if_neg hp]
      cases hk : fs.lstat (goFilepathJoin2 cur p) with
      | missing => simp [List.find?_cons, lstatIsOther, hk]
      | symlink => simp [List.find?_cons, lstatIsOther, hk]
      | statError => simp [List.find?_cons, lstatIsOther, hk]
      | other =>
        simp only [List.find?_cons, lstatIsOther, hk, Bool.not_true]
        exact ih (goFilepathJoin2 cur p)

theorem walkParts_ok_no_symlink (fs : FS) (joined : String) :
    ∀ (parts : List String) (cur a : String),
      walkParts fs joined cur parts = .ok a →
      ∀ q ∈ (checkedPrefixes cur parts).takeWhile (lstatExists fs),
        fs.lstat q = .other := by
  intro parts
  induction parts with
  | nil => intro cur a _ q hq; simp [checkedPrefixes] at hq
  | cons p rest ih =>
    intro cur a hok q hq
    by_cases hp : p = ""
    · rw [walkParts, if_pos hp] at hok
      rw [checkedPrefixes, if_pos hp] at hq
      exact ih cur a hok q hq
    · rw [walkParts, if_neg hp] at hok
      rw [checkedPrefixes, if_neg hp] at hq
      cases hk : fs.lstat (goFilepathJoin2 cur p) with
      | missing =>
        rw [List.takeWhile_cons] at hq
        simp [lstatExists, hk] at hq
      | symlink => rw [hk] at hok; exact absurd hok (by simp)
      | statError => rw [hk] at hok; exact absurd hok (by simp)
      | other =>
        rw [hk] at hok
        rw [List.takeWhile_cons] at hq
        have hcond : lstatExists fs (goFilepathJoin2 cur p) = true := by
          simp [lstatExists, hk]
        rw [if_pos hcond] at hq
        rcases List.mem_cons.mp hq with h | h
        · rw [h]; exact hk
        · exact ih (goFilepathJoin2 cur p) a hok q h

/-- Counterexample to C2 as stated: the walk only lstat-s the cumulative
prefixes *strictly below* the cleaned root, so a root whose own path is an
existing symlink is not detected.  Here `/a` is a symlink, `/a/b` exists,
and `ResolveWithinRoot("/a", "b", false)` succeeds. -/
def c2fs : FS :=
  ⟨fun s => if s = "/a" then .symlink else if s = "/a/b" then .other else .missing⟩

theorem resolveNoFollow_root_symlink_not_checked :
    c2fs.lstat "/a" = .symlink ∧
    goResolveWithinRootNoFollow c2fs "/a" "b" = .ok "/a/b" := by
  constructor
  · decide
  · decide

/-- C2 (amended).  With `followSymlinks=false` and a non-empty cleaned
relative path, the walk below the cleaned root behaves exactly as: find the
first checked prefix (cumulative join of `rel`'s components under the
cleaned root) that is not an existing non-symlink; if none, or if it is
missing (non-existent tail, allowed for create flows), return the lexically
joined path; if it is a symlink, fail with `"symlink traversal disabled"`.
Consequently a successful resolution never traverses a symlink in an
existing checked component. -/
theorem resolveNoFollow_symlink_policy (fs : FS) (R r joined : String)
    (hJ : goJoinWithinRoot R r = .ok joined)
    (hrel : goCleanRelPath r ≠ "") :
    (goResolveWithinRootNoFollow fs R r =
      (match (checkedPrefixes (goPathClean R) (goStringsSplitSlash (goCleanRelPath r))).find?
          (fun q => !lstatIsOther fs q) with
       | none => .ok joined
       | some q =>
         match fs.lstat q with
         | .missing => .ok joined
         | .symlink => .error "symlink traversal disabled"
         | .statError => .error "lstat error"
         | .other => .ok joined)) ∧
    (∀ a, goResolveWithinRootNoFollow fs R r = .ok a →
      ∀ q ∈ (checkedPrefixes (goPathClean R) (goStringsSplitSlash
          (goCleanRelPath r))).takeWhile (lstatExists fs),
        fs.lstat q = .other) := by
  have hres : goResolveWithinRootNoFollow fs R r
      = walkParts fs joined (goPathClean R) (goStringsSplitSlash (goCleanRelPath r)) := by
    rw [goResolveWithinRootNoFollow, hJ]
    exact if_neg hrel
  constructor
  · rw [hres]
    exact walkParts_characterization fs joined _ _
  · intro a ha
    rw [hres] at ha
    exact walkParts_ok_no_symlink fs joined _ _ a ha

/-- Witness for `resolveNoFollow_symlink_policy`: root `/r`, path `a/b`
where `/r/a` exists (not a symlink) and `/r/a/b` is missing. -/
def c2fsW : FS := ⟨fun s => if s = "/r/a" then .other else .missing⟩

theorem resolveNoFollow_symlink_policy_witness :
    goJoinWithinRoot "/r" "a/b" = .ok "/r/a/b" ∧ goCleanRelPath "a/b" ≠ "" ∧
    (goResolveWithinRootNoFollow c2fsW "/r" "a/b" =
      (match (checkedPrefixes (goPathClean "/r") (goStringsSplitSlash (goCleanRelPath "a/b"))).find?
          (fun q => !lstatIsOther c2fsW q) with
       | none => .ok "/r/a/b"
       | some q =>
         match c2fsW.lstat q with
         | .missing => .ok "/r/a/b"
         | .symlink => .error "symlink traversal disabled"
         | .statError => .error "lstat error"
         | .other => .ok "/r/a/b")) ∧
    (∀ a, goResolveWithinRootNoFollow c2fsW "/r" "a/b" = .ok a →
      ∀ q ∈ (checkedPrefixes (goPathClean "/r") (goStringsSplitSlash
          (goCleanRelPath "a/b"))).takeWhile (lstatExists c2fsW),
        c2fsW.lstat q = .other) := by
  refine ⟨by decide, by decide, ?_⟩
  exact resolveNoFollow_symlink_policy c2fsW "/r" "a/b" "/r/a/b" (by decide) (by decide)

/-! ### Authorization (src/internal/auth/auth.go: `HasAuth`, `Allowed`,
`containsUser`).

Only the fields of `config.Config` that `Allowed` reads are modelled: the
user map (just its key set, since only emptiness and membership matter here)
and the ordered ACL rule list. -/

structure GoACL where
  path : String
  read : List String
  write : List String
  admin : List String
deriving DecidableEq, Repr

structure GoConfig where
  users : List String
  acls : List GoACL
deriving DecidableEq, Repr

inductive Perm
  | read
  | write
  | admin
deriving DecidableEq, Repr

/-- `strings.TrimSuffix(s, "/")` (single-character suffix). -/
def goTrimSuffixSlash (s : String) : String :=
  if s.data.getLast? = some '/' then ⟨s.data.dropLast⟩ else s

/-- `auth.containsUser`: trim each entry, skip empties, match `"*"` or exact
equality (`subtle.ConstantTimeCompare` is equality). -/
def containsUser (list : List String) (u : String) : Bool :=
  list.any fun v =>
    let v1 := goTrimSpace v
    if v1 = "" then false else (v1 = "*" || v1 = u)

/-- Normalization of a rule's path inside the `Allowed` loop: empty becomes
`"/"`, a leading slash is forced, one trailing slash is stripped unless the
path is exactly `"/"`. -/
def normACLPath (ap0 : String) : String :=
  let ap1 := if ap0 = "" then "/" else ap0
  let ap2 := if ¬ (ap1.data.head? = some '/') then ⟨'/' :: ap1.data⟩ else ap1
  if ap2 ≠ "/" ∧ ap2.data.getLast? = some '/' then goTrimSuffixSlash ap2 else ap2

/-- The prefix test of the `Allowed` loop: the request path equals the
normalized rule path, extends it past a `'/'`, or the rule path is `"/"`
and the request path starts with `'/'`. -/
def aclMatch (cleanPath : String) (a : GoACL) : Bool :=
  let ap := normACLPath a.path
  cleanPath = ap || (ap.data ++ ['/']).isPrefixOf cleanPath.data ||
    (ap = "/" && (cleanPath.data.head? = some '/'))

/-- The decision taken once a rule has matched: membership of the identity in
the permission's list; for write/admin an empty identity is denied first. -/
def permDecision (a : GoACL) (user : String) : Perm → Bool
  | .read => containsUser a.read user
  | .write => if user = "" then false else containsUser a.write user
  | .admin => if user = "" then false else containsUser a.admin user

/-- The default policy of `Allowed` when auth is enabled but no rule
matches: read for authenticated users only, write/admin denied. -/
def permNoRule (user : String) : Perm → Bool
  | .read => user != ""
  | .write => false
  | .admin => false

/-- `auth.Allowed`.  `HasAuth(cfg)` is `cfg.users ≠ []`. -/
def goAllowed (cfg : GoConfig) (user cleanPath : String) (perm : Perm) :
    Except String Bool :=
  if ¬ ((if cleanPath = "" then "/" else cleanPath).data.head? = some '/') then
    .error "invalid cleanPath"
  else if cfg.users = [] then .ok true
  else
    match cfg.acls.find? (aclMatch (if cleanPath = "" then "/" else cleanPath)) with
    | some a => .ok (permDecision a user perm)
    | none => .ok (permNoRule user perm)

theorem find?_eq_of_first {α : Type} (p : α → Bool) :
    ∀ (l : List α) (i : Nat) (hi : i < l.length),
      p (l.get ⟨i, hi⟩) = true →
      (∀ j (hj : j < l.length), j < i → p (l.get ⟨j, hj⟩) = false) →
      l.find? p = some (l.get ⟨i, hi⟩) := by
  intro l
  induction l with
  | nil => intro i hi; simp at hi
  | cons a t ih =>
    intro i hi hp hprior
    cases i with
    | zero => exact List.find?_cons_of_pos t hp
    | succ n =>
      have ha : p a = false := hprior 0 (by simp) (Nat.succ_pos n)
      have h2 := ih n (Nat.lt_of_succ_lt_succ hi) hp
        (fun j hj hlt => hprior (j + 1) (Nat.succ_lt_succ hj) (Nat.succ_lt_succ hlt))
      rw [List.find?_cons_of_neg _ (by simp [ha])]
      exact h2

/-- C3.  ACL evaluation for a clean request path: with no users configured
everything is allowed; with users configured, the first rule (in order) whose
normalized path prefix-matches the request path decides via membership
(`permDecision`, where `"*"` is a wildcard entry and an empty identity is
always denied write/admin); with no matching rule, read is granted exactly to
authenticated (non-empty) identities and write/admin are denied. -/
theorem allowed_first_match (cfg : GoConfig) (user cp : String) (perm : Perm)
    (hcp : cp.data.head? = some '/') :
    (cfg.users = [] → goAllowed cfg user cp perm = .ok true) ∧
    (cfg.users ≠ [] →
      ∀ (i : Nat) (hi : i < cfg.acls.length),
        aclMatch cp (cfg.acls.get ⟨i, hi⟩) = true →
        (∀ j (hj : j < cfg.acls.length), j < i →
          aclMatch cp (cfg.acls.get ⟨j, hj⟩) = false) →
        goAllowed cfg user cp perm = .ok (permDecision (cfg.acls.get ⟨i, hi⟩) user perm)) ∧
    (cfg.users ≠ [] → (∀ a ∈ cfg.acls, aclMatch cp a = false) →
      goAllowed cfg user cp perm =
        .ok (match perm with
             | .read => user != ""
             | .write => false
             | .admin => false)) := by
  have hcp' : cp ≠ "" := by
    intro h
    rw [h] at hcp
    simp at hcp
  have hcpif : (if cp = "" then "/" else cp) = cp := if_neg hcp'
  refine ⟨?_, ?_, ?_⟩
  · intro hu
    unfold goAllowed
    rw [hcpif, if_neg (by simp [hcp]), if_pos hu]
  · intro hu i hi hmatch hprior
    unfold goAllowed
    rw [hcpif, if_neg (by simp [hcp]), if_neg hu,
      find?_eq_of_first (aclMatch cp) cfg.acls i hi hmatch hprior]
  · intro hu hnone
    unfold goAllowed
    rw [hcpif, if_neg (by simp [hcp]), if_neg hu, List.find?_eq_none.mpr
      (fun a ha => by simp [hnone a ha])]
    cases perm <;> rfl

/-- Configuration of end-to-end scenario 4 of the spec: one user, ACLs
`[{path:"/public", read:["*"]}, {path:"/", read:["alice"]}]`. -/
def cfgScenario4 : GoConfig :=
  { users := ["alice"]
    acls := [⟨"/public", ["*"], [], []⟩, ⟨"/", ["alice"], [], []⟩] }

/-- Witness for `allowed_first_match`: the anonymous user may read
`/public/x` (wildcard in the first matching rule) under `cfgScenario4`. -/
theorem allowed_first_match_witness :
    goAllowed cfgScenario4 "" "/public/x" .read = .ok true := by
  have h := (allowed_first_match cfgScenario4 "" "/public/x" .read (by decide)).2.1
    (by decide) 0 (by decide) (by decide)
    (fun j hj hlt => absurd hlt (Nat.not_lt_zero j))
  rw [h]
  decide

/-! ### Upload manager state (src/unnamed/part_001, package `upload`).

The manager's mutable state is modelled as a `World`: the regular files
relevant to uploads (path ↦ byte contents, bytes as `Nat` values `< 256` in
the program; the bound is irrelevant to the claims) plus the in-memory
session table.  The JSON sidecar mirrors the in-memory session after each
successful mutation (`Manager.save` is modelled as succeeding); random ids
are supplied by the caller of `Create`.  `Content-Range` parsing
(`parseContentRange`) is modelled by its outcome: a `(start, end, total)`
triple is valid iff `0 ≤ start ∧ start ≤ end ∧ (total = -1 ∨ (0 < total ∧
end < total))`, exactly the conditions under which the Go parser returns
without error (with `total = -1` for `"*"`); an invalid header fails the
request before any state is touched. -/

/-- Association-list lookup by key (first binding wins). -/
def lookupA {α : Type} (l : List (String × α)) (k : String) : Option α :=
  (l.find? (fun kv => kv.1 = k)).map (fun kv => kv.2)

/-- Remove all bindings of a key. -/
def removeA {α : Type} (l : List (String × α)) (k : String) : List (String × α) :=
  l.filter (fun kv => ¬ (kv.1 = k))

/-- Set a binding (overwriting previous ones). -/
def setA {α : Type} (l : List (String × α)) (k : String) (v : α) : List (String × α) :=
  (k, v) :: removeA l k

theorem lookupA_setA_same {α : Type} (l : List (String × α)) (k : String) (v : α) :
    lookupA (setA l k v) k = some v := by
  simp [lookupA, setA, List.find?_cons_of_pos]

theorem lookupA_cons {α : Type} (kv : String × α) (t : List (String × α)) (q : String) :
    lookupA (kv :: t) q = if kv.1 = q then some kv.2 else lookupA t q := by
  by_cases h : kv.1 = q
  · rw [lookupA, List.find?_cons_of_pos _ (by simp [h]), if_pos h]
    rfl
  · rw [lookupA, List.find?_cons_of_neg _ (by simp [h]), if_neg h]
    rfl

theorem lookupA_removeA_same {α : Type} (l : List (String × α)) (k : String) :
    lookupA (removeA l k) k = none := by
  rw [lookupA, Option.map_eq_none', List.find?_eq_none]
  intro kv hkv
  have := List.of_mem_filter hkv
  simpa using this

theorem lookupA_removeA_other {α : Type} (l : List (String × α)) (k q : String)
    (h : q ≠ k) : lookupA (removeA l k) q = lookupA l q := by
  induction l with
  | nil => rfl
  | cons kv t ih =>
    by_cases hk : kv.1 = k
    · have h1 : removeA (kv :: t) k = removeA t k := by
        simp [removeA, List.filter_cons, hk]
      have hq : ¬ kv.1 = q := fun hq => h (hq.symm.trans hk)
      rw [h1, ih, lookupA_cons, if_neg hq]
    · have h1 : removeA (kv :: t) k = kv :: removeA t k := by
        simp [removeA, List.filter_cons, hk]
      rw [h1, lookupA_cons, lookupA_cons, ih]

theorem lookupA_setA_other {α : Type} (l : List (String × α)) (k q : String) (v : α)
    (h : q ≠ k) : lookupA (setA l k v) q = lookupA l q := by
  rw [setA, lookupA, List.find?_cons_of_neg _ (by simp [h.symm])]
  exact lookupA_removeA_other l k q h

/-- `upload.session`. -/
structure GoSession where
  id : String
  destRel : String
  size : Int
  offset : Int
  created : Int
deriving DecidableEq, Repr

/-- The manager's state: relevant regular files and the in-memory sessions. -/
structure World where
  files : List (String × List Nat)
  sessions : List (String × GoSession)
deriving DecidableEq, Repr

/-- The manager's fixed configuration: share root, uploads dir
(`<stateDir>/uploads`), and the dedup store's blob dir (`<stateDir>/blobs`). -/
structure Mgr where
  rootAbs : String
  dir : String
  blobDir : String
deriving DecidableEq, Repr

/-- `filepath.Join(m.dir, id + ".part")`. -/
def partPath (m : Mgr) (id : String) : String := goFilepathJoin2 m.dir (id ++ ".part")

/-- `filepath.Join(m.dir, id + ".tmp")`. -/
def tmpPath (m : Mgr) (id : String) : String := goFilepathJoin2 m.dir (id ++ ".tmp")

/-- Errors of `Manager.Patch` and their origin, used by `handleUploadID` to
pick the HTTP status (`errors.Is(err, os.ErrNotExist)` → 404, else 400). -/
inductive UpErr
  | notExist
  | invalidRange
  | offsetMismatch (have_ want : Int)
  | sizeMismatch (have_ want : Int)
  | shortBody
deriving DecidableEq, Repr

/-- HTTP status chosen by `handleUploadID` for a `Patch` error. -/
def upErrStatus : UpErr → Nat
  | .notExist => 404
  | _ => 400

/-- Rendering of the Go error messages (`fmt.Errorf`). -/
def upErrMsg : UpErr → String
  | .notExist => "file does not exist"
  | .invalidRange => "invalid Content-Range"
  | .offsetMismatch h w => "offset mismatch: have " ++ toString h ++ " want " ++ toString w
  | .sizeMismatch h w => "size mismatch: have " ++ toString h ++ " want " ++ toString w
  | .shortBody => "unexpected EOF"

/-- Writing `body` into a file's contents at byte offset `start` (the file is
opened `O_CREATE|O_WRONLY`, sought to `start`, written, and fsynced); a seek
past the end leaves a zero-filled hole as on a POSIX filesystem. -/
def writeAt (content : List Nat) (start : Nat) (body : List Nat) : List Nat :=
  (if start ≤ content.length then content.take start
   else content ++ List.replicate (start - content.length) 0) ++
  body ++
  (if start + body.length ≤ content.length then content.drop (start + body.length) else [])

/-- The size adoption of `Manager.Patch`: an unknown declared size adopts a
supplied non-negative total.  In Go this writes through the shared session
pointer, so it persists even when a later step of the same request fails. -/
def adoptSize (s : GoSession) (total : Int) : GoSession :=
  if s.size < 0 ∧ 0 ≤ total then { s with size := total } else s

/-- The body of `Manager.Patch` once the session has been looked up.
Returns the state after the call together with the result; errors may still
have mutated the state exactly where the Go code does (the size adoption
persists, and a body shorter than the declared range is written to the
`.part` file before `io.CopyN` reports `EOF`).  A body at least
`end-start+1` bytes long models a request whose `io.CopyN` copies the full
chunk (extra request-body bytes are left unread).  A missing `.part` file
reads as empty (`O_CREATE`). -/
def goPatchS (m : Mgr) (w : World) (id : String) (s : GoSession)
    (start end_ total : Int) (body : List Nat) : World × Except UpErr GoSession :=
  if ¬ (0 ≤ start ∧ start ≤ end_ ∧ (total = -1 ∨ (0 < total ∧ end_ < total))) then
    (w, .error .invalidRange)
  else if start ≠ s.offset then
    (w, .error (.offsetMismatch s.offset start))
  else if 0 ≤ (adoptSize s total).size ∧ 0 ≤ total ∧ (adoptSize s total).size ≠ total then
    ({ w with sessions := setA w.sessions id (adoptSize s total) },
      .error (.sizeMismatch (adoptSize s total).size total))
  else if (body.length : Int) < end_ - start + 1 then
    ({ sessions := setA w.sessions id (adoptSize s total)
       files := setA w.files (partPath m id)
         (writeAt ((lookupA w.files (partPath m id)).getD []) start.toNat body) },
      .error .shortBody)
  else
    ({ sessions := setA (setA w.sessions id (adoptSize s total)) id
         { adoptSize s total with
             offset := (adoptSize s total).offset + (end_ - start + 1) }
       files := setA w.files (partPath m id)
         (writeAt ((lookupA w.files (partPath m id)).getD []) start.toNat
           (body.take (end_ - start + 1).toNat)) },
      .ok { adoptSize s total with
              offset := (adoptSize s total).offset + (end_ - start + 1) })

/-- `Manager.Patch`: look up the session, then run `goPatchS`. -/
def goPatch (m : Mgr) (w : World) (id : String) (start end_ total : Int)
    (body : List Nat) : World × Except UpErr GoSession :=
  match lookupA w.sessions id with
  | none => (w, .error .notExist)
  | some s => goPatchS m w id s start end_ total body

theorem goPatch_some (m : Mgr) (w : World) (id : String) (s : GoSession)
    (start end_ total : Int) (body : List Nat)
    (hs : lookupA w.sessions id = some s) :
    goPatch m w id start end_ total body = goPatchS m w id s start end_ total body := by
  rw [goPatch, hs]

/-- C4.  A `PATCH` whose `Content-Range` start differs from the session's
current offset fails with the explicit offset-mismatch error, mapped to HTTP
400 by `handleUploadID`, and leaves the whole manager state — in particular
the session's offset and the on-disk `.part` file — unchanged. -/
theorem patch_offset_mismatch (m : Mgr) (w : World) (id : String) (s : GoSession)
    (start end_ total : Int) (body : List Nat)
    (hs : lookupA w.sessions id = some s)
    (hr : 0 ≤ start ∧ start ≤ end_ ∧ (total = -1 ∨ (0 < total ∧ end_ < total)))
    (hne : start ≠ s.offset) :
    goPatch m w id start end_ total body = (w, .error (.offsetMismatch s.offset start)) ∧
    upErrStatus (.offsetMismatch s.offset start) = 400 ∧
    ("offset mismatch").data.isPrefixOf (upErrMsg (.offsetMismatch s.offset start)).data
      = true := by
  refine ⟨?_, rfl, ?_⟩
  · rw [goPatch_some m w id s start end_ total body hs, goPatchS,
      if_neg (not_not_intro hr), if_pos hne]
  · rw [List.isPrefixOf_iff_prefix]
    show ("offset mismatch").data <+:
      (("offset mismatch: have " ++ toString s.offset ++ " want "
        ++ toString start) : String).data
    have h1 : (("offset mismatch: have " ++ toString s.offset ++ " want "
        ++ toString start) : String).data
        = ("offset mismatch: have ").data ++ (toString s.offset ++ " want "
          ++ toString start).data := by
      simp [String.data_append]
    rw [h1]
    exact List.IsPrefix.trans ⟨(": have ").data, by decide⟩ (List.prefix_append _ _)

/-- Witness for `patch_offset_mismatch`: a session at offset 5 receives a
chunk starting at 0 (scenario 2 of the spec). -/
def w4 : World :=
  { files := [("/st/uploads/i.part", [104, 101, 108, 108, 111])]
    sessions := [("i", ⟨"i", "notes/a.txt", -1, 5, 0⟩)] }

def m4 : Mgr := ⟨"/r", "/st/uploads", "/st/blobs"⟩

theorem patch_offset_mismatch_witness :
    goPatch m4 w4 "i" 0 4 11 [104, 101, 108, 108, 111] =
      (w4, .error (.offsetMismatch 5 0)) ∧
    upErrStatus (.offsetMismatch 5 0) = 400 ∧
    ("offset mismatch").data.isPrefixOf (upErrMsg (.offsetMismatch 5 0)).data = true :=
  patch_offset_mismatch m4 w4 "i" ⟨"i", "notes/a.txt", -1, 5, 0⟩ 0 4 11
    [104, 101, 108, 108, 111] (by decide) (by decide) (by decide)


/-! ### C5: successful `PATCH` sequences -/

theorem adoptSize_offset (s : GoSession) (total : Int) :
    (adoptSize s total).offset = s.offset := by
  rw [adoptSize]
  split <;> rfl

theorem writeAt_at_end (content body : List Nat) :
    writeAt content content.length body = content ++ body := by
  rw [writeAt, if_pos (le_refl _), List.take_length]
  by_cases h : content.length + body.length ≤ content.length
  · have hb : body = [] := List.length_eq_zero.mp (by omega)
    rw [if_pos h]
    simp [hb]
  · rw [if_neg h]
    simp

/-- One successful `Patch` advances the offset by exactly `end-start+1`
(strictly), and re-establishes that the `.part` file length equals the
offset. -/
theorem goPatch_ok_step (m : Mgr) (w : World) (id : String) (s s1 : GoSession)
    (start end_ total : Int) (body : List Nat) (w1 : World)
    (hs : lookupA w.sessions id = some s)
    (hlen : ((lookupA w.files (partPath m id)).getD []).length = s.offset.toNat)
    (_hpos : 0 ≤ s.offset)
    (hok : goPatch m w id start end_ total body = (w1, .ok s1)) :
    lookupA w1.sessions id = some s1 ∧
    s1.offset = s.offset + (end_ - start + 1) ∧
    s.offset < s1.offset ∧
    ((lookupA w1.files (partPath m id)).getD []).length = s1.offset.toNat ∧
    0 ≤ s1.offset := by
  rw [goPatch_some m w id s start end_ total body hs, goPatchS] at hok
  by_cases h1 : ¬ (0 ≤ start ∧ start ≤ end_ ∧ (total = -1 ∨ (0 < total ∧ end_ < total)))
  · rw [if_pos h1] at hok
    simp at hok
  · rw [if_neg h1] at hok
    push_neg at h1
    by_cases h2 : start ≠ s.offset
    · rw [if_pos h2] at hok
      simp at hok
    · rw [if_neg h2] at hok
      push_neg at h2
      by_cases h3 : 0 ≤ (adoptSize s total).size ∧ 0 ≤ total ∧ (adoptSize s total).size ≠ total
      · rw [if_pos h3] at hok
        simp at hok
      · rw [if_neg h3] at hok
        by_cases h4 : (body.length : Int) < end_ - start + 1
        · rw [if_pos h4] at hok
          simp at hok
        · rw [if_neg h4] at hok
          have hw := congrArg Prod.fst hok
          have hr := congrArg Prod.snd hok
          simp only [] at hw hr
          have hs1 : s1 = { adoptSize s total with
              offset := (adoptSize s total).offset + (end_ - start + 1) } := by
            cases hr
            rfl
          have hn1 : (1 : Int) ≤ end_ - start + 1 := by omega
          have hoff : s1.offset = s.offset + (end_ - start + 1) := by
            rw [hs1]
            show (adoptSize s total).offset + (end_ - start + 1) = _
            rw [adoptSize_offset]
          refine ⟨?_, hoff, by omega, ?_, by omega⟩
          · rw [← hw]
            show lookupA (setA (setA w.sessions id (adoptSize s total)) id _) id = some s1
            rw [lookupA_setA_same, hs1]
          · rw [← hw]
            show ((lookupA (setA w.files (partPath m id)
              (writeAt ((lookupA w.files (partPath m id)).getD []) start.toNat
                (body.take (end_ - start + 1).toNat))) (partPath m id)).getD []).length
              = s1.offset.toNat
            rw [lookupA_setA_same]
            have hstart : start.toNat
                = ((lookupA w.files (partPath m id)).getD []).length := by
              rw [hlen, h2]
            rw [Option.getD_some, hstart, writeAt_at_end, List.length_append,
              List.length_take]
            have hbl : (end_ - start + 1).toNat ≤ body.length := by omega
            rw [min_eq_left hbl, ← hstart]
            omega

/-- The range/body parameters of a sequence of `PATCH` calls. -/
def chunkSum : List (Int × Int × Int × List Nat) → Int
  | [] => 0
  | (st, en, _, _) :: rest => (en - st + 1) + chunkSum rest

/-- A sequence of `Patch` calls, all of which must succeed. -/
def goPatchSeq (m : Mgr) (id : String) : World → List (Int × Int × Int × List Nat) → Option World
  | w, [] => some w
  | w, (st, en, tot, body) :: rest =>
    match goPatch m w id st en tot body with
    | (w1, .ok _) => goPatchSeq m id w1 rest
    | _ => none

/-- C5.  Along any sequence of successful `PATCH` calls on a session whose
`.part` file length equals its offset (as after creation), the offset
advances by exactly `end-start+1` per chunk — in total by `chunkSum` — is
strictly monotonically increasing, and equals the `.part` file length after
every successful chunk write (every intermediate state is the final state of
the corresponding prefix sequence). -/
theorem patch_seq_monotone (m : Mgr) (id : String)
    (ops : List (Int × Int × Int × List Nat)) :
    ∀ (w w' : World) (s : GoSession),
      lookupA w.sessions id = some s →
      ((lookupA w.files (partPath m id)).getD []).length = s.offset.toNat →
      0 ≤ s.offset →
      goPatchSeq m id w ops = some w' →
      ∃ s', lookupA w'.sessions id = some s' ∧
        ((lookupA w'.files (partPath m id)).getD []).length = s'.offset.toNat ∧
        s'.offset = s.offset + chunkSum ops ∧
        s.offset ≤ s'.offset ∧
        (ops ≠ [] → s.offset < s'.offset) := by
  induction ops with
  | nil =>
    intro w w' s hs hlen _hpos hseq
    rw [goPatchSeq] at hseq
    cases hseq
    exact ⟨s, hs, hlen, by rw [chunkSum]; omega, le_refl _, fun h => absurd rfl h⟩
  | cons op rest ih =>
    obtain ⟨st, en, tot, body⟩ := op
    intro w w' s hs hlen hpos hseq
    rw [goPatchSeq] at hseq
    cases hp : goPatch m w id st en tot body with
    | mk w1 r =>
      rw [hp] at hseq
      cases r with
      | error e => simp at hseq
      | ok s1 =>
        obtain ⟨hlk, hoff, hlt, hflen, hpos1⟩ :=
          goPatch_ok_step m w id s s1 st en tot body w1 hs hlen hpos hp
        obtain ⟨s', h1, h2, h3, h4, _⟩ := ih w1 w' s1 hlk hflen hpos1 hseq
        refine ⟨s', h1, h2, ?_, by omega, fun _ => by omega⟩
        rw [chunkSum]
        omega

/-- Witness data for `patch_seq_monotone`: end-to-end scenario 1 of the
spec, `hello` then ` world` into a fresh unknown-size session. -/
def m5 : Mgr := ⟨"/r", "/st/uploads", "/st/blobs"⟩

def w5 : World :=
  { files := []
    sessions := [("i", ⟨"i", "notes/a.txt", -1, 0, 0⟩)] }

def ops5 : List (Int × Int × Int × List Nat) :=
  [(0, 4, -1, [104, 101, 108, 108, 111]),
   (5, 10, 11, [32, 119, 111, 114, 108, 100])]

def w5fin : World := (goPatchSeq m5 "i" w5 ops5).getD ⟨[], []⟩

theorem patch_seq_monotone_witness :
    goPatchSeq m5 "i" w5 ops5 = some w5fin ∧
    ∃ s', lookupA w5fin.sessions "i" = some s' ∧
      ((lookupA w5fin.files (partPath m5 "i")).getD []).length = s'.offset.toNat ∧
      s'.offset = (⟨"i", "notes/a.txt", -1, 0, 0⟩ : GoSession).offset + chunkSum ops5 ∧
      (⟨"i", "notes/a.txt", -1, 0, 0⟩ : GoSession).offset ≤ s'.offset ∧
      (ops5 ≠ [] → (⟨"i", "notes/a.txt", -1, 0, 0⟩ : GoSession).offset < s'.offset) :=
  ⟨by decide, patch_seq_monotone m5 "i" ops5 w5 w5fin ⟨"i", "notes/a.txt", -1, 0, 0⟩
    (by decide) (by decide) (by decide) (by decide)⟩

/-! ### Dedup blob store (src/internal/auth/auth.go, package `dedup`:
`Store.Put`, `copyFile`, `LinkOrCopy`).

SHA-256 itself is not re-modelled; the streamed digest is an abstract
function `hash : List Nat → String` passed to the model, and every property
proved holds for the program's concrete hash by instantiation.  `Put` is
modelled over the regular files of the state; `renameWorks` selects between
the `os.Rename` fast path and the cross-device `copyFile` + fsync +
`os.Remove` fallback, which produce the same final file map. -/

/-- `dedup.Store.Put`: stream the temp file computing the digest; if the
blob `<blobDir>/<sum>` already exists (as a regular file), remove the temp
and return the existing blob; otherwise move the temp into place. -/
def goPut (hash : List Nat → String) (renameWorks : Bool)
    (files : List (String × List Nat)) (blobDir tmp : String) :
    List (String × List Nat) × Except String (String × String × Int) :=
  match lookupA files tmp with
  | none => (files, .error "open failed")
  | some content =>
    match lookupA files (goFilepathJoin2 blobDir (hash content)) with
    | some existing =>
      (removeA files tmp,
        .ok (hash content, goFilepathJoin2 blobDir (hash content), (existing.length : Int)))
    | none =>
      if renameWorks then
        (setA (removeA files tmp) (goFilepathJoin2 blobDir (hash content)) content,
          .ok (hash content, goFilepathJoin2 blobDir (hash content), (content.length : Int)))
      else
        (removeA (setA files (goFilepathJoin2 blobDir (hash content)) content) tmp,
          .ok (hash content, goFilepathJoin2 blobDir (hash content), (content.length : Int)))

/-- `dedup.LinkOrCopy`: remove any existing destination, then hardlink the
blob to the destination, falling back to a copy; both read the blob, so they
fail if removing the destination removed the blob itself. -/
def goLinkOrCopy (files : List (String × List Nat)) (blobP dst : String) :
    Except String (List (String × List Nat)) :=
  match lookupA (removeA files dst) blobP with
  | none => .error "link and copy failed"
  | some c => .ok (setA (removeA files dst) dst c)

/-- C8.  Every successful `Put` removes the temp file from its original
path; if the blob already existed, the result is the existing blob's path
and size and the state changes only by the temp's removal; otherwise the
blob file now holds the temp's contents (whether the rename worked or the
copy fallback ran). -/
theorem put_correct (hash : List Nat → String) (rnw : Bool)
    (files files' : List (String × List Nat)) (blobDir tmp : String)
    (sum dst : String) (sz : Int)
    (h : goPut hash rnw files blobDir tmp = (files', .ok (sum, dst, sz))) :
    ∃ content, lookupA files tmp = some content ∧
      sum = hash content ∧ dst = goFilepathJoin2 blobDir sum ∧
      lookupA files' tmp = none ∧
      (match lookupA files dst with
       | some existing => sz = (existing.length : Int) ∧ files' = removeA files tmp
       | none => sz = (content.length : Int) ∧ lookupA files' dst = some content) := by
  rw [goPut] at h
  split at h
  next hc => simp at h
  next content hc =>
    refine ⟨content, hc, ?_⟩
    split at h
    next existing hb =>
      injection h with hf hr
      injection hr with hr2
      injection hr2 with h1 h23
      injection h23 with h2 h3
      refine ⟨h1.symm, by rw [← h2, h1], ?_, ?_⟩
      · rw [← hf]
        exact lookupA_removeA_same files tmp
      · rw [← h2, hb]
        exact ⟨h3.symm, hf.symm⟩
    next hb =>
      have htd : tmp ≠ goFilepathJoin2 blobDir (hash content) := by
        intro he
        rw [← he, hc] at hb
        exact Option.noConfusion hb
      by_cases hw : rnw = true
      · rw [if_pos hw] at h
        injection h with hf hr
        injection hr with hr2
        injection hr2 with h1 h23
        injection h23 with h2 h3
        refine ⟨h1.symm, by rw [← h2, h1], ?_, ?_⟩
        · rw [← hf, lookupA_setA_other _ _ _ _ htd]
          exact lookupA_removeA_same files tmp
        · rw [← h2, hb]
          refine ⟨h3.symm, ?_⟩
          rw [← hf]
          exact lookupA_setA_same _ _ _
      · rw [if_neg hw] at h
        injection h with hf hr
        injection hr with hr2
        injection hr2 with h1 h23
        injection h23 with h2 h3
        refine ⟨h1.symm, by rw [← h2, h1], ?_, ?_⟩
        · rw [← hf]
          exact lookupA_removeA_same _ tmp
        · rw [← h2, hb]
          refine ⟨h3.symm, ?_⟩
          rw [← hf, lookupA_removeA_other _ _ _ (Ne.symm htd)]
          exact lookupA_setA_same _ _ _

/-- Witness for `put_correct`: a fresh one-byte blob is stored under its
digest and the temp disappears. -/
def hash8 : List Nat → String := fun c => "h" ++ toString c.length

theorem put_correct_witness :
    goPut hash8 true [("/st/uploads/t.tmp", [7])] "/st/blobs" "/st/uploads/t.tmp"
      = ((goPut hash8 true [("/st/uploads/t.tmp", [7])] "/st/blobs" "/st/uploads/t.tmp").1,
          .ok ("h1", "/st/blobs/h1", 1)) ∧
    ∃ content,
      lookupA [("/st/uploads/t.tmp", [7])] "/st/uploads/t.tmp" = some content ∧
      "h1" = hash8 content ∧ "/st/blobs/h1" = goFilepathJoin2 "/st/blobs" "h1" ∧
      lookupA (goPut hash8 true [("/st/uploads/t.tmp", [7])] "/st/blobs"
        "/st/uploads/t.tmp").1 "/st/uploads/t.tmp" = none ∧
      (match lookupA [("/st/uploads/t.tmp", [7])] "/st/blobs/h1" with
       | some existing => (1 : Int) = (existing.length : Int) ∧
           (goPut hash8 true [("/st/uploads/t.tmp", [7])] "/st/blobs"
             "/st/uploads/t.tmp").1 = removeA [("/st/uploads/t.tmp", [7])] "/st/uploads/t.tmp"
       | none => (1 : Int) = (content.length : Int) ∧
           lookupA (goPut hash8 true [("/st/uploads/t.tmp", [7])] "/st/blobs"
             "/st/uploads/t.tmp").1 "/st/blobs/h1" = some content) := by
  refine ⟨by decide, ?_⟩
  exact put_correct hash8 true [("/st/uploads/t.tmp", [7])] _ "/st/blobs"
    "/st/uploads/t.tmp" "h1" "/st/blobs/h1" 1 (by decide)

/-! ### `Manager.Finish` (src/unnamed/part_001). -/

inductive FinErr
  | notExist
  | incomplete (offset size : Int)
  | statFailed
  | fileSizeMismatch (file expected : Int)
  | renameFailed
  | putFailed (msg : String)
  | joinFailed (msg : String)
  | linkCopyFailed
deriving DecidableEq, Repr

/-- `Manager.Finish`: require the declared size (when known) to equal the
offset and the `.part` length; remove any stale `.tmp` and rename `.part` →
`.tmp`; hand the temp to the blob store; resolve the destination through
`JoinWithinRoot`; materialize it with `LinkOrCopy`; finally drop the sidecar
(not modelled separately from the in-memory table) and the session entry. -/
def goFinish (hash : List Nat → String) (renameWorks : Bool) (m : Mgr) (w : World)
    (id : String) : World × Except FinErr (String × String × Int) :=
  match lookupA w.sessions id with
  | none => (w, .error .notExist)
  | some s =>
    if 0 ≤ s.size ∧ s.offset ≠ s.size then (w, .error (.incomplete s.offset s.size))
    else
      match lookupA w.files (partPath m id) with
      | none => (w, .error .statFailed)
      | some content =>
        if 0 ≤ s.size ∧ (content.length : Int) ≠ s.size then
          (w, .error (.fileSizeMismatch content.length s.size))
        else
          match lookupA (removeA w.files (tmpPath m id)) (partPath m id) with
          | none =>
            ({ w with files := removeA w.files (tmpPath m id) }, .error .renameFailed)
          | some c =>
            match goPut hash renameWorks
                (setA (removeA (removeA w.files (tmpPath m id)) (partPath m id))
                  (tmpPath m id) c)
                m.blobDir (tmpPath m id) with
            | (files2, .error e) => ({ w with files := files2 }, .error (.putFailed e))
            | (files2, .ok (sum, blobP, size)) =>
              match goJoinWithinRoot m.rootAbs s.destRel with
              | .error e => ({ w with files := files2 }, .error (.joinFailed e))
              | .ok dstAbs =>
                match goLinkOrCopy files2 blobP dstAbs with
                | .error _ => ({ w with files := files2 }, .error .linkCopyFailed)
                | .ok files3 =>
                  ({ files := files3, sessions := removeA w.sessions id },
                    .ok (dstAbs, sum, size))

/-- C6.  A successful `Finish` implies: the session existed and its declared
size was unknown (negative) or equal to both the offset and the `.part` file
length; the returned destination is the `JoinWithinRoot` resolution of the
session's destination; the in-memory session entry is removed; and the
materialized destination file and the blob file named by the returned digest
both hold the same bytes, whose digest is the returned digest.  The blob
hypothesis is the store invariant (spec §4.4): a pre-existing blob file for
the part's digest hashes to that digest. -/
theorem finish_correct (hash : List Nat → String) (rnw : Bool) (m : Mgr) (w : World)
    (id : String) (w' : World) (dst sha : String) (sz : Int)
    (hblob : ∀ c c', lookupA w.files (partPath m id) = some c →
        lookupA w.files (goFilepathJoin2 m.blobDir (hash c)) = some c' →
        hash c' = hash c)
    (hfin : goFinish hash rnw m w id = (w', .ok (dst, sha, sz))) :
    ∃ s content, lookupA w.sessions id = some s ∧
      lookupA w.files (partPath m id) = some content ∧
      (s.size < 0 ∨ (s.offset = s.size ∧ (content.length : Int) = s.size)) ∧
      goJoinWithinRoot m.rootAbs s.destRel = .ok dst ∧
      lookupA w'.sessions id = none ∧
      sha = hash content ∧
      ∃ mat, lookupA w'.files dst = some mat ∧ hash mat = sha ∧
        lookupA w'.files (goFilepathJoin2 m.blobDir sha) = some mat := by
  rw [goFinish] at hfin
  split at hfin
  next hsn => simp at hfin
  next s hs =>
    split at hfin
    next hinc => simp at hfin
    next hinc =>
      push_neg at hinc
      split at hfin
      next hpn => simp at hfin
      next content hpart =>
        split at hfin
        next hfsz => simp at hfin
        next hfsz =>
          push_neg at hfsz
          refine ⟨s, content, hs, hpart, ?_, ?_⟩
          · by_cases h0 : 0 ≤ s.size
            · exact Or.inr ⟨hinc h0, hfsz h0⟩
            · exact Or.inl (by omega)
          split at hfin
          next hren => simp at hfin
          next c hren =>
            have hpt : partPath m id ≠ tmpPath m id := by
              intro he
              rw [he, lookupA_removeA_same] at hren
              exact Option.noConfusion hren
            have hceq : c = content := by
              rw [lookupA_removeA_other _ _ _ hpt, hpart] at hren
              exact (Option.some.inj hren).symm
            rw [hceq] at hfin
            split at hfin
            next files2 e hput => simp at hfin
            next files2 sum blobP size hput =>
              obtain ⟨c1, hc1, hsum, hbp, htmpgone, hmatch⟩ :=
                put_correct hash rnw _ files2 m.blobDir (tmpPath m id) sum blobP size hput
              have hc1eq : c1 = content := by
                rw [lookupA_setA_same] at hc1
                exact (Option.some.inj hc1).symm
              rw [hc1eq] at hsum hmatch
              split at hfin
              next e hjoin => simp at hfin
              next dstAbs hjoin =>
                split at hfin
                next hlc => simp at hfin
                next files3 hlc =>
                  rw [goLinkOrCopy] at hlc
                  split at hlc
                  next => simp at hlc
                  next cb hcb =>
                    have hf3 : files3 = setA (removeA files2 dstAbs) dstAbs cb :=
                      (Except.ok.inj hlc).symm
                    injection hfin with hw hr
                    injection hr with hr2
                    injection hr2 with h1 h23
                    injection h23 with h2 h3
                    have hsha : sha = hash content := by rw [← h2, hsum]
                    have hcbhash : hash cb = hash content := by
                      by_cases hbd : blobP = dstAbs
                      · rw [hbd, lookupA_removeA_same] at hcb
                        exact Option.noConfusion hcb
                      · rw [lookupA_removeA_other _ _ _ hbd] at hcb
                        cases hbl : lookupA (setA (removeA (removeA w.files (tmpPath m id))
                            (partPath m id)) (tmpPath m id) content) blobP with
                        | none =>
                          rw [hbl] at hmatch
                          obtain ⟨_, hf2⟩ := hmatch
                          exact congrArg hash (Option.some.inj (hf2.symm.trans hcb)).symm
                        | some existing =>
                          rw [hbl] at hmatch
                          obtain ⟨hsz, hf2⟩ := hmatch
                          rw [hf2] at hcb
                          by_cases hbt : blobP = tmpPath m id
                          · rw [hbt, lookupA_removeA_same] at hcb
                            exact Option.noConfusion hcb
                          · rw [lookupA_removeA_other _ _ _ hbt] at hcb
                            have hec : existing = cb := Option.some.inj (hbl.symm.trans hcb)
                            rw [lookupA_setA_other _ _ _ _ hbt] at hbl
                            by_cases hbpp : blobP = partPath m id
                            · rw [hbpp, lookupA_removeA_same] at hbl
                              exact Option.noConfusion hbl
                            · rw [lookupA_removeA_other _ _ _ hbpp,
                                lookupA_removeA_other _ _ _ hbt] at hbl
                              have hb2 : lookupA w.files
                                  (goFilepathJoin2 m.blobDir (hash content))
                                  = some existing := by
                                rw [← hsum, ← hbp]
                                exact hbl
                              rw [← hec]
                              exact hblob content existing hpart hb2
                    refine ⟨?_, ?_, hsha, cb, ?_, ?_, ?_⟩
                    · rw [hjoin, h1]
                    · rw [← hw]
                      show lookupA (removeA w.sessions id) id = none
                      exact lookupA_removeA_same _ _
                    · rw [← hw, hf3, ← h1]
                      show lookupA (setA (removeA files2 dstAbs) dstAbs cb) dstAbs = some cb
                      exact lookupA_setA_same _ _ _
                    · rw [hcbhash, hsha]
                    · rw [← hw, hf3]
                      show lookupA (setA (removeA files2 dstAbs) dstAbs cb)
                        (goFilepathJoin2 m.blobDir sha) = some cb
                      rw [hsha, ← hsum, ← hbp]
                      by_cases hbd : blobP = dstAbs
                      · rw [hbd]
                        exact lookupA_setA_same _ _ _
                      · rw [lookupA_setA_other _ _ _ _ hbd]
                        rw [lookupA_removeA_other _ _ _ hbd] at hcb
                        rw [lookupA_removeA_other _ _ _ hbd]
                        exact hcb

/-- Witness data for `finish_correct`: a one-byte upload with unknown size
finishing into `doc.txt`, with a constant digest function (the blob-store
invariant hypothesis is vacuous because no blob pre-exists). -/
def hash6 : List Nat → String := fun _ => "aa"

def m6 : Mgr := ⟨"/r", "/st/uploads", "/st/blobs"⟩

def w6 : World :=
  { files := [("/st/uploads/i.part", [7])]
    sessions := [("i", ⟨"i", "doc.txt", -1, 1, 0⟩)] }

def w6fin : World := (goFinish hash6 true m6 w6 "i").1

theorem finish_correct_witness :
    ∃ s content, lookupA w6.sessions "i" = some s ∧
      lookupA w6.files (partPath m6 "i") = some content ∧
      (s.size < 0 ∨ (s.offset = s.size ∧ (content.length : Int) = s.size)) ∧
      goJoinWithinRoot m6.rootAbs s.destRel = .ok "/r/doc.txt" ∧
      lookupA w6fin.sessions "i" = none ∧
      "aa" = hash6 content ∧
      ∃ mat, lookupA w6fin.files "/r/doc.txt" = some mat ∧ hash6 mat = "aa" ∧
        lookupA w6fin.files (goFilepathJoin2 m6.blobDir "aa") = some mat :=
  finish_correct hash6 true m6 w6 "i" w6fin "/r/doc.txt" "aa" 1
    (fun _ c' _ h2 => Option.noConfusion
      (show (none : Option (List Nat)) = some c' from h2))
    (by decide)

/-! ### `POST /api/uploads` conflict handling
(src/internal/httpserver/server.go: `handleUploads`, `uniqueNameInDir`,
`joinRel`).

The handler is modelled with `followSymlinks=false` (the default symlink
policy), the ACL outcome as a boolean parameter (`s.allowed` is the subject
of C3), `os.Stat` existence as an oracle `ex`, and the fresh random session
id as a parameter. -/

/-- `strings.ToLower` (ASCII case folding; mode strings are ASCII). -/
def goToLower (s : String) : String := ⟨s.data.map Char.toLower⟩

/-- `path.Dir`: everything up to and including the last `'/'`, cleaned
(`"."` when there is no slash). -/
def goPathDir (p : String) : String :=
  goPathClean ⟨(p.data.reverse.dropWhile (fun c => ¬ c = '/')).reverse⟩

/-- `strings.TrimPrefix(s, "/")`. -/
def goTrimPrefixSlash (s : String) : String :=
  if s.data.head? = some '/' then ⟨s.data.tail⟩ else s

/-- Linux `filepath.Base`: strip trailing slashes, then keep the part after
the last remaining slash; `""` gives `"."`, all-slashes gives `"/"`. -/
def goFilepathBase (p : String) : String :=
  if p = "" then "."
  else
    if (p.data.reverse.dropWhile (fun c => c = '/')).reverse = [] then "/"
    else ⟨((p.data.reverse.dropWhile (fun c => c = '/')).takeWhile
      (fun c => ¬ c = '/')).reverse⟩

/-- `filepath.Ext`: the suffix from the last dot in the final element, or
`""` when the final element has no dot. -/
def goFilepathExt (p : String) : String :=
  if (p.data.reverse.takeWhile (fun c => ¬ c = '/')).contains '.' then
    ⟨(((p.data.reverse.takeWhile (fun c => ¬ c = '/')).takeWhile
        (fun c => ¬ c = '.')) ++ ['.']).reverse⟩
  else ""

/-- `strings.TrimSuffix`. -/
def goTrimSuffix (s suf : String) : String :=
  if suf.data.isSuffixOf s.data then ⟨s.data.take (s.data.length - suf.data.length)⟩
  else s

/-- The stem/ext split of `uniqueNameInDir`: `"file.txt"` ↦ `("file",
".txt")`; when the stem would be empty (names like `".txt"`), the whole base
becomes the stem and the extension is dropped. -/
def uStemExt (base : String) : String × String :=
  if goTrimSuffix base (goFilepathExt base) = "" then (base, "")
  else (goTrimSuffix base (goFilepathExt base), goFilepathExt base)

/-- The candidate `"<stem> (<i>)<ext>"`. -/
def candName (stem ext : String) (i : Nat) : String :=
  stem ++ " (" ++ toString i ++ ")" ++ ext

/-- The counting loop of `uniqueNameInDir`: try `i = 1, 2, …` until a
candidate does not exist; the Go loop stops before `i = 10000`. -/
def goUniqueLoop (ex : String → Bool) (dirAbs stem ext : String) :
    Nat → Nat → Except String String
  | 0, _ => .error "no free name"
  | fuel + 1, i =>
    if ex (goFilepathJoin2 dirAbs (candName stem ext i)) then
      goUniqueLoop ex dirAbs stem ext fuel (i + 1)
    else .ok (candName stem ext i)

/-- `uniqueNameInDir`. -/
def goUniqueNameInDir (ex : String → Bool) (dirAbs base : String) :
    Except String String :=
  goUniqueLoop ex dirAbs (uStemExt base).1 (uStemExt base).2 9999 1

/-- `joinRel`. -/
def joinRel (parent name : String) : String :=
  if parent = "" then name else parent ++ "/" ++ name

/-- The outcomes of `handleUploads` (POST). -/
inductive UploadsOutcome
  | badMode
  | missingPath
  | forbidden
  | badPath
  | skipped (path : String)
  | conflict
  | createFailed
  | created (id : String) (offset size : Int) (dest : String)
deriving DecidableEq, Repr

/-- The HTTP status the handler writes for each outcome (`forbidden` is 401
when the handler challenges an anonymous optional-auth request, else 403;
`skipped` and `created` are 200 JSON responses). -/
def uploadsOutcomeStatus (challenge : Bool) : UploadsOutcome → Nat
  | .badMode => 400
  | .missingPath => 400
  | .forbidden => if challenge then 401 else 403
  | .badPath => 400
  | .skipped _ => 200
  | .conflict => 409
  | .createFailed => 500
  | .created _ _ _ _ => 200

/-- The mode query parameter after lowering/trimming, defaulting to
`"overwrite"`. -/
def normMode (modeQ : String) : String :=
  if goToLower (goTrimSpace modeQ) = "" then "overwrite" else goToLower (goTrimSpace modeQ)

/-- `upload.Manager.Create` reached from the handler: allocate the session
(id supplied), clean the destination, offset 0; the handler then replies
`{id, offset, size, dest}`. -/
def mkSession (w : World) (freshId dest : String) (total : Int) :
    World × UploadsOutcome :=
  ({ w with
      sessions := setA w.sessions freshId ⟨freshId, goCleanRelPath dest, total, 0, 0⟩ },
    .created freshId 0 total (goCleanRelPath dest))

/-- The renaming tail of the conflict policy: pick a unique sibling name and
create the session under it. -/
def renameStage (ex : String → Bool) (w : World) (freshId parentRel base : String)
    (total : Int) (parentAbs : String) : World × UploadsOutcome :=
  match goUniqueNameInDir ex parentAbs base with
  | .error _ => (w, .createFailed)
  | .ok nm => mkSession w freshId (joinRel parentRel nm) total

/-- The conflict policy of `handleUploads` once the destination has been
resolved: applied only when the destination exists (`os.Stat` succeeds). -/
def goHandleUploadsConflict (fs : FS) (ex : String → Bool) (root : String)
    (w : World) (freshId dest modeQ : String) (total : Int) (destAbs : String) :
    World × UploadsOutcome :=
  if ex destAbs then
    if normMode modeQ = "skip" then (w, .skipped dest)
    else if normMode modeQ = "error" then (w, .conflict)
    else if normMode modeQ = "rename" then
      match goResolveWithinRootNoFollow fs root
          (goTrimPrefixSlash (goPathDir ("/" ++ dest))) with
      | .error _ => (w, .badPath)
      | .ok parentAbs =>
        renameStage ex w freshId (goTrimPrefixSlash (goPathDir ("/" ++ dest)))
          (goFilepathBase dest) total parentAbs
    else mkSession w freshId dest total
  else mkSession w freshId dest total

/-- `handleUploads` (POST): validate the mode, require a path and write
permission, resolve the destination, and apply the conflict policy when the
destination exists. -/
def goHandleUploadsPost (fs : FS) (ex : String → Bool) (root : String)
    (w : World) (freshId pathQ modeQ : String) (total : Int)
    (allowedWrite : Bool) : World × UploadsOutcome :=
  if ¬ (normMode modeQ = "error" ∨ normMode modeQ = "skip" ∨
      normMode modeQ = "overwrite" ∨ normMode modeQ = "rename") then
    (w, .badMode)
  else if goCleanRelPath pathQ = "" then (w, .missingPath)
  else if ¬ allowedWrite then (w, .forbidden)
  else
    match goResolveWithinRootNoFollow fs root (goCleanRelPath pathQ) with
    | .error _ => (w, .badPath)
    | .ok destAbs =>
      goHandleUploadsConflict fs ex root w freshId (goCleanRelPath pathQ) modeQ
        total destAbs

theorem goUniqueLoop_spec (ex : String → Bool) (dirAbs stem ext : String) :
    ∀ (fuel i : Nat),
      (∃ j, i ≤ j ∧ j < i + fuel ∧
        ex (goFilepathJoin2 dirAbs (candName stem ext j)) = false) →
      ∃ N, i ≤ N ∧ N < i + fuel ∧
        goUniqueLoop ex dirAbs stem ext fuel i = .ok (candName stem ext N) ∧
        ex (goFilepathJoin2 dirAbs (candName stem ext N)) = false ∧
        ∀ j, i ≤ j → j < N → ex (goFilepathJoin2 dirAbs (candName stem ext j)) = true := by
  intro fuel
  induction fuel with
  | zero =>
    intro i hfree
    obtain ⟨j, hj1, hj2, _⟩ := hfree
    omega
  | succ f ih =>
    intro i hfree
    by_cases hx : ex (goFilepathJoin2 dirAbs (candName stem ext i)) = true
    · rw [goUniqueLoop, if_pos hx]
      obtain ⟨j, hj1, hj2, hj3⟩ := hfree
      have hji : j ≠ i := by
        intro he
        rw [← he] at hx
        rw [hj3] at hx
        exact Bool.noConfusion hx
      obtain ⟨N, hN1, hN0, hN2, hN3, hN4⟩ := ih (i + 1) ⟨j, by omega, by omega, hj3⟩
      refine ⟨N, by omega, by omega, hN2, hN3, ?_⟩
      intro j2 hji2 hjN
      by_cases h : j2 = i
      · rw [h]; exact hx
      · exact hN4 j2 (by omega) hjN
    · rw [goUniqueLoop, if_neg hx]
      exact ⟨i, le_refl i, by omega, rfl, by simpa using hx,
        fun j hj1 hj2 => absurd hj1 (by omega)⟩

/-- `Put` changes no file other than the temp and the blob for the temp's
digest. -/
theorem goPut_frame (hash : List Nat → String) (rnw : Bool)
    (files : List (String × List Nat)) (blobDir tmp q : String)
    (hq1 : q ≠ tmp)
    (hq2 : ∀ content, lookupA files tmp = some content →
      q ≠ goFilepathJoin2 blobDir (hash content)) :
    lookupA (goPut hash rnw files blobDir tmp).1 q = lookupA files q := by
  rw [goPut]
  split
  next => rfl
  next content hc =>
    split
    next existing hb =>
      show lookupA (removeA files tmp) q = _
      exact lookupA_removeA_other _ _ _ hq1
    next hb =>
      have hqb := hq2 content hc
      by_cases hw : rnw = true
      · rw [if_pos hw]
        show lookupA (setA (removeA files tmp)
          (goFilepathJoin2 blobDir (hash content)) content) q = _
        rw [lookupA_setA_other _ _ _ _ hqb, lookupA_removeA_other _ _ _ hq1]
      · rw [if_neg hw]
        show lookupA (removeA (setA files
          (goFilepathJoin2 blobDir (hash content)) content) tmp) q = _
        rw [lookupA_removeA_other _ _ _ hq1, lookupA_setA_other _ _ _ _ hqb]

/-- `Finish` changes no file other than the session's `.part` and `.tmp`
files, the blob for the part's digest, and the resolved destination. -/
theorem goFinish_frame (hash : List Nat → String) (rnw : Bool) (mgr : Mgr)
    (w2 : World) (sid q : String)
    (hq1 : q ≠ partPath mgr sid) (hq2 : q ≠ tmpPath mgr sid)
    (hq3 : ∀ c, lookupA (removeA w2.files (tmpPath mgr sid)) (partPath mgr sid) = some c →
      q ≠ goFilepathJoin2 mgr.blobDir (hash c))
    (hq4 : ∀ s, lookupA w2.sessions sid = some s →
      ∀ d, goJoinWithinRoot mgr.rootAbs s.destRel = .ok d → q ≠ d) :
    lookupA (goFinish hash rnw mgr w2 sid).1.files q = lookupA w2.files q := by
  rw [goFinish]
  split
  next => rfl
  next s hs =>
    split
    next => rfl
    next =>
      split
      next => rfl
      next content hpart =>
        split
        next => rfl
        next =>
          split
          next hren =>
            show lookupA (removeA w2.files (tmpPath mgr sid)) q = _
            exact lookupA_removeA_other _ _ _ hq2
          next c hren =>
            have hf1 : lookupA (setA (removeA (removeA w2.files (tmpPath mgr sid))
                (partPath mgr sid)) (tmpPath mgr sid) c) q = lookupA w2.files q := by
              rw [lookupA_setA_other _ _ _ _ hq2, lookupA_removeA_other _ _ _ hq1,
                lookupA_removeA_other _ _ _ hq2]
            have hqb1 : ∀ content1,
                lookupA (setA (removeA (removeA w2.files (tmpPath mgr sid))
                  (partPath mgr sid)) (tmpPath mgr sid) c) (tmpPath mgr sid) = some content1 →
                q ≠ goFilepathJoin2 mgr.blobDir (hash content1) := by
              intro content1 h1
              rw [lookupA_setA_same] at h1
              rw [← Option.some.inj h1]
              exact hq3 c hren
            have hput2 := goPut_frame hash rnw _ mgr.blobDir (tmpPath mgr sid) q hq2 hqb1
            split
            next files2 e hput =>
              show lookupA files2 q = _
              rw [hput] at hput2
              exact hput2.trans hf1
            next files2 sum blobP size hput =>
              rw [hput] at hput2
              have hf2 : lookupA files2 q = lookupA w2.files q := hput2.trans hf1
              split
              next =>
                show lookupA files2 q = _
                exact hf2
              next dstAbs hjoin =>
                have hqd : q ≠ dstAbs := hq4 s hs dstAbs hjoin
                split
                next =>
                  show lookupA files2 q = _
                  exact hf2
                next files3 hlc =>
                  rw [goLinkOrCopy] at hlc
                  split at hlc
                  next => exact absurd hlc (by simp)
                  next cb hcb =>
                    have hf3 : files3 = setA (removeA files2 dstAbs) dstAbs cb :=
                      (Except.ok.inj hlc).symm
                    show lookupA files3 q = _
                    rw [hf3, lookupA_setA_other _ _ _ _ hqd,
                      lookupA_removeA_other _ _ _ hqd]
                    exact hf2

/-- C7.  When the destination of `POST /api/uploads` exists, the conflict
mode decides at create time: `skip` replies `{skipped, path}` with the
state unchanged (no session allocated), `error` replies 409 Conflict,
`overwrite` creates the session under the original destination, and `rename`
creates it under the first free sibling `"<stem> (N)<ext>"` with `N` counted
from 1 (every earlier candidate exists, the chosen one does not).  Finishing
any session leaves every file other than the session's `.part`/`.tmp` files,
the stored blob, and the resolved destination untouched — in particular the
original file of a renamed upload. -/
theorem handleUploads_conflict_modes (fs : FS) (ex : String → Bool) (root : String)
    (w : World) (freshId pathQ : String) (total : Int) (destAbs : String)
    (hD : goCleanRelPath pathQ ≠ "")
    (hres : goResolveWithinRootNoFollow fs root (goCleanRelPath pathQ) = .ok destAbs)
    (hex : ex destAbs = true) :
    goHandleUploadsPost fs ex root w freshId pathQ "skip" total true
      = (w, .skipped (goCleanRelPath pathQ)) ∧
    goHandleUploadsPost fs ex root w freshId pathQ "error" total true
      = (w, .conflict) ∧
    uploadsOutcomeStatus false .conflict = 409 ∧
    goHandleUploadsPost fs ex root w freshId pathQ "overwrite" total true
      = mkSession w freshId (goCleanRelPath pathQ) total ∧
    (∀ parentAbs,
      goResolveWithinRootNoFollow fs root
        (goTrimPrefixSlash (goPathDir ("/" ++ (goCleanRelPath pathQ)))) = .ok parentAbs →
      (∃ j, 1 ≤ j ∧ j < 10000 ∧
        ex (goFilepathJoin2 parentAbs (candName (uStemExt (goFilepathBase (goCleanRelPath pathQ))).1 (uStemExt (goFilepathBase (goCleanRelPath pathQ))).2 j)) = false) →
      ∃ N, 1 ≤ N ∧ N < 10000 ∧
        ex (goFilepathJoin2 parentAbs (candName (uStemExt (goFilepathBase (goCleanRelPath pathQ))).1 (uStemExt (goFilepathBase (goCleanRelPath pathQ))).2 N)) = false ∧
        (∀ j, 1 ≤ j → j < N →
          ex (goFilepathJoin2 parentAbs (candName (uStemExt (goFilepathBase (goCleanRelPath pathQ))).1 (uStemExt (goFilepathBase (goCleanRelPath pathQ))).2 j)) = true) ∧
        goHandleUploadsPost fs ex root w freshId pathQ "rename" total true
          = mkSession w freshId
              (joinRel (goTrimPrefixSlash (goPathDir ("/" ++ (goCleanRelPath pathQ))))
                (candName (uStemExt (goFilepathBase (goCleanRelPath pathQ))).1 (uStemExt (goFilepathBase (goCleanRelPath pathQ))).2 N)) total) ∧
    (∀ (hash : List Nat → String) (rnw : Bool) (mgr : Mgr) (w2 : World) (sid q : String),
      q ≠ partPath mgr sid → q ≠ tmpPath mgr sid →
      (∀ c, lookupA (removeA w2.files (tmpPath mgr sid)) (partPath mgr sid) = some c →
        q ≠ goFilepathJoin2 mgr.blobDir (hash c)) →
      (∀ s, lookupA w2.sessions sid = some s →
        ∀ d, goJoinWithinRoot mgr.rootAbs s.destRel = .ok d → q ≠ d) →
      lookupA (goFinish hash rnw mgr w2 sid).1.files q = lookupA w2.files q) := by
  have hpost : ∀ modeQ : String,
      (normMode modeQ = "error" ∨ normMode modeQ = "skip" ∨
        normMode modeQ = "overwrite" ∨ normMode modeQ = "rename") →
      goHandleUploadsPost fs ex root w freshId pathQ modeQ total true
        = goHandleUploadsConflict fs ex root w freshId (goCleanRelPath pathQ) modeQ total destAbs := by
    intro modeQ hm
    unfold goHandleUploadsPost
    rw [if_neg (not_not_intro hm), if_neg hD, if_neg (by simp), hres]
  refine ⟨?_, ?_, rfl, ?_, ?_, ?_⟩
  · rw [hpost "skip" (Or.inr (Or.inl (by decide))), goHandleUploadsConflict,
      if_pos hex, if_pos (by decide : normMode "skip" = "skip")]
  · rw [hpost "error" (Or.inl (by decide)), goHandleUploadsConflict,
      if_pos hex, if_neg (by decide : ¬ normMode "error" = "skip"),
      if_pos (by decide : normMode "error" = "error")]
  · rw [hpost "overwrite" (Or.inr (Or.inr (Or.inl (by decide)))),
      goHandleUploadsConflict, if_pos hex,
      if_neg (by decide : ¬ normMode "overwrite" = "skip"),
      if_neg (by decide : ¬ normMode "overwrite" = "error"),
      if_neg (by decide : ¬ normMode "overwrite" = "rename")]
  · intro parentAbs hpar hfree
    obtain ⟨j, hj1, hj2, hj3⟩ := hfree
    obtain ⟨N, hN1, hN0, hN2, hN3, hN4⟩ :=
      goUniqueLoop_spec ex parentAbs (uStemExt (goFilepathBase (goCleanRelPath pathQ))).1 (uStemExt (goFilepathBase (goCleanRelPath pathQ))).2 9999 1 ⟨j, hj1, by omega, hj3⟩
    refine ⟨N, hN1, by omega, hN3, hN4, ?_⟩
    rw [hpost "rename" (Or.inr (Or.inr (Or.inr (by decide)))),
      goHandleUploadsConflict, if_pos hex,
      if_neg (by decide : ¬ normMode "rename" = "skip"),
      if_neg (by decide : ¬ normMode "rename" = "error"),
      if_pos (by decide : normMode "rename" = "rename"), hpar]
    show renameStage ex w freshId (goTrimPrefixSlash (goPathDir ("/" ++ (goCleanRelPath pathQ))))
      (goFilepathBase (goCleanRelPath pathQ)) total parentAbs = _
    rw [renameStage, goUniqueNameInDir, hN2]
  · exact fun hash rnw mgr w2 sid q h1 h2 h3 h4 =>
      goFinish_frame hash rnw mgr w2 sid q h1 h2 h3 h4

/-- Witness data for `handleUploads_conflict_modes`: scenario 6 of the spec,
`POST /api/uploads?path=a.txt&mode=rename` when `/r/a.txt` exists and
`/r/a (1).txt` does not. -/
def fs7 : FS := ⟨fun _ => .missing⟩

def ex7 : String → Bool := fun s => s = "/r/a.txt"

theorem handleUploads_conflict_modes_witness :
    goHandleUploadsPost fs7 ex7 "/r" ⟨[], []⟩ "id1" "a.txt" "skip" (-1) true
      = (⟨[], []⟩, .skipped (goCleanRelPath "a.txt")) ∧
    goHandleUploadsPost fs7 ex7 "/r" ⟨[], []⟩ "id1" "a.txt" "error" (-1) true
      = (⟨[], []⟩, .conflict) ∧
    uploadsOutcomeStatus false .conflict = 409 ∧
    goHandleUploadsPost fs7 ex7 "/r" ⟨[], []⟩ "id1" "a.txt" "overwrite" (-1) true
      = mkSession ⟨[], []⟩ "id1" (goCleanRelPath "a.txt") (-1) ∧
    (∀ parentAbs,
      goResolveWithinRootNoFollow fs7 "/r"
        (goTrimPrefixSlash (goPathDir ("/" ++ goCleanRelPath "a.txt"))) = .ok parentAbs →
      (∃ j, 1 ≤ j ∧ j < 10000 ∧
        ex7 (goFilepathJoin2 parentAbs
          (candName (uStemExt (goFilepathBase (goCleanRelPath "a.txt"))).1
            (uStemExt (goFilepathBase (goCleanRelPath "a.txt"))).2 j)) = false) →
      ∃ N, 1 ≤ N ∧ N < 10000 ∧
        ex7 (goFilepathJoin2 parentAbs
          (candName (uStemExt (goFilepathBase (goCleanRelPath "a.txt"))).1
            (uStemExt (goFilepathBase (goCleanRelPath "a.txt"))).2 N)) = false ∧
        (∀ j, 1 ≤ j → j < N →
          ex7 (goFilepathJoin2 parentAbs
            (candName (uStemExt (goFilepathBase (goCleanRelPath "a.txt"))).1
              (uStemExt (goFilepathBase (goCleanRelPath "a.txt"))).2 j)) = true) ∧
        goHandleUploadsPost fs7 ex7 "/r" ⟨[], []⟩ "id1" "a.txt" "rename" (-1) true
          = mkSession ⟨[], []⟩ "id1"
              (joinRel (goTrimPrefixSlash (goPathDir ("/" ++ goCleanRelPath "a.txt")))
                (candName (uStemExt (goFilepathBase (goCleanRelPath "a.txt"))).1
                  (uStemExt (goFilepathBase (goCleanRelPath "a.txt"))).2 N)) (-1)) ∧
    (∀ (hash : List Nat → String) (rnw : Bool) (mgr : Mgr) (w2 : World) (sid q : String),
      q ≠ partPath mgr sid → q ≠ tmpPath mgr sid →
      (∀ c, lookupA (removeA w2.files (tmpPath mgr sid)) (partPath mgr sid) = some c →
        q ≠ goFilepathJoin2 mgr.blobDir (hash c)) →
      (∀ s, lookupA w2.sessions sid = some s →
        ∀ d, goJoinWithinRoot mgr.rootAbs s.destRel = .ok d → q ≠ d) →
      lookupA (goFinish hash rnw mgr w2 sid).1.files q = lookupA w2.files q) :=
  handleUploads_conflict_modes fs7 ex7 "/r" ⟨[], []⟩ "id1" "a.txt" (-1) "/r/a.txt"
    (by decide) (by decide) (by decide)

/-! ### Listing order (src/internal/httpserver/server.go, `handleList`).

`handleList` sorts the assembled items with `sort.Slice` under the
comparator `less(i, j) = if IsDir differs then IsDir(i) else
ToLower(name i) < ToLower(name j)`.  Only the two fields the comparator
reads are modelled; `sort.Slice`'s pdqsort is modelled by a comparison sort
over the same comparator (the claim — sortedness of the output — holds for
any sort that orders by this comparator; `os.ReadDir` already feeds the
entries deterministically, sorted by filename).  `strings.ToLower` is
modelled on ASCII; Go compares strings by bytes, which on UTF-8 agrees with
the code-point order of Lean's `String` linear order. -/

structure GoListItem where
  name : String
  isDir : Bool
deriving DecidableEq, Repr

/-- The `sort.Slice` comparator of `handleList`. -/
def listLess (a b : GoListItem) : Bool :=
  if a.isDir ≠ b.isDir then a.isDir
  else decide (goToLower a.name < goToLower b.name)

/-- The non-strict order induced by the comparator: `a` may precede `b`. -/
def listLE (a b : GoListItem) : Prop := listLess b a = false

instance : DecidableRel listLE := fun _ _ => inferInstanceAs (Decidable (_ = false))

theorem listLE_iff (a b : GoListItem) :
    listLE a b ↔ ((a.isDir = b.isDir ∧ goToLower a.name ≤ goToLower b.name) ∨
      (a.isDir = true ∧ b.isDir = false)) := by
  unfold listLE listLess
  cases ha : a.isDir <;> cases hb : b.isDir <;> simp [ha, hb, not_lt]

theorem listLE_total (a b : GoListItem) : listLE a b ∨ listLE b a := by
  rw [listLE_iff, listLE_iff]
  cases ha : a.isDir <;> cases hb : b.isDir <;> simp [ha, hb] <;> exact le_total _ _

theorem listLE_trans (a b c : GoListItem) (hab : listLE a b) (hbc : listLE b c) :
    listLE a c := by
  rw [listLE_iff] at hab hbc ⊢
  rcases hab with ⟨h1, h2⟩ | ⟨h1, h2⟩ <;> rcases hbc with ⟨h3, h4⟩ | ⟨h3, h4⟩
  · exact Or.inl ⟨h1.trans h3, le_trans h2 h4⟩
  · exact Or.inr ⟨h1.trans h3, h4⟩
  · exact Or.inr ⟨h1, h3.symm.trans h2⟩
  · exact absurd h3 (by simp [h2])

instance : IsTotal GoListItem listLE := ⟨listLE_total⟩

instance : IsTrans GoListItem listLE := ⟨fun a b c => listLE_trans a b c⟩

/-- The sort step of `handleList`. -/
def sortListItems (items : List GoListItem) : List GoListItem :=
  List.insertionSort listLE items

/-- C10.  The listing a successful `GET /api/list` returns is a permutation
of the directory entries in which every directory precedes every
non-directory, and entries of the same kind appear in nondecreasing order of
their lowercased names.  The output is a deterministic function of the
(deterministic) `os.ReadDir` entry order. -/
theorem handleList_order (items : List GoListItem) :
    (sortListItems items).Perm items ∧
    (sortListItems items).Pairwise (fun a b =>
      (b.isDir = true → a.isDir = true) ∧
      (a.isDir = b.isDir → goToLower a.name ≤ goToLower b.name)) := by
  constructor
  · exact List.perm_insertionSort listLE items
  · refine List.Pairwise.imp ?_ (List.sorted_insertionSort listLE items)
    intro a b hle
    rw [listLE_iff] at hle
    rcases hle with ⟨h1, h2⟩ | ⟨h1, h2⟩
    · exact ⟨fun hb => h1.trans hb, fun _ => h2⟩
    · refine ⟨fun hb => absurd hb (by simp [h2]), ?_⟩
      intro he
      exact absurd (he.symm.trans h1) (by simp [h2])

end Lanparty
